import Mathlib

/-!
Verification of the dcompass routing core against its specification.

Shallow embedding of the following source files:
* `dmatcher/src/hosts.rs` (reverse-label trie hosts matcher),
* `droute/src/router/table.rs` (`Table::new`, `traverse`, `Table::route`),
* `droute/src/router/table/parsed.rs` (`ParBranch`, `ParRule`),
* `droute/src/router/table/rule/matchers/domain.rs` (`Domain::matches`),
* `droute/src/router/script/utils/fastanswer.rs` (`fast_answer`, `fast_answer_ip`),
* `droute/src/router/script/utils/hosts.rs` (`into_hosts_config`).

Machine integers only occur as octets and ttl values, none of which are
ever close to overflow in the embedded code paths, so they are modelled
as `Nat`.  DNS names are modelled as their list of labels, most
significant label first, without the trailing root label: the Rust
`Dname` iterators always carry the root label as a common first step of
every reverse walk and count it in `label_count()`, so dropping it on
both sides of the embedding preserves every comparison the code makes.
Rust panics (`unwrap`, out-of-bounds indexing) are modelled as
distinguished error values, and the unbounded recursion / iteration of
`traverse` and the routing loop is modelled with explicit fuel together
with a distinguished out-of-fuel value that the theorems below prove
unreachable from validated tables.
-/

/-- An IP address (`std::net::IpAddr`): four octets for v4, eight 16-bit
groups for v6. -/
inductive IpAddr where
  | v4 (a b c d : Nat)
  | v6 (g0 g1 g2 g3 g4 g5 g6 g7 : Nat)
  deriving DecidableEq, Repr

/-- `MatchType` from `dmatcher/src/hosts.rs`: payload of a trie node.
`server` is the "Full Match Required" (exact) variant. -/
inductive MatchType where
  | none
  | subdomain (ip : IpAddr)
  | server (ip : IpAddr)
  deriving DecidableEq, Repr

/-- `LevelNode` from `dmatcher/src/hosts.rs`: a trie node with a child
map keyed by label and an ip payload.  The Rust `HashMap` is modelled as
an association list. -/
inductive LevelNode where
  | mk (next_lvs : List (String × LevelNode)) (ip : MatchType)

/-- Child map of a trie node. -/
def LevelNode.next_lvs : LevelNode → List (String × LevelNode)
  | .mk n _ => n

/-- Payload of a trie node. -/
def LevelNode.ip : LevelNode → MatchType
  | .mk _ i => i

/-- `LevelNode::new()`: empty child map, `MatchType::None` payload. -/
def LevelNode.new : LevelNode := .mk [] .none

/-- `HashMap::get` on the child map. -/
def assocGet : List (String × LevelNode) → String → Option LevelNode
  | [], _ => Option.none
  | (k, v) :: rest, key => if k = key then some v else assocGet rest key

/-- Store a child under a key: replace the existing entry, or append a
new one (`HashMap::entry().or_insert_with` followed by a write). -/
def assocSet : List (String × LevelNode) → String → LevelNode → List (String × LevelNode)
  | [], key, v => [(key, v)]
  | (k, w) :: rest, key, v =>
      if k = key then (k, v) :: rest else (k, w) :: assocSet rest key v

/-- `Hosts` from `dmatcher/src/hosts.rs`. -/
structure Hosts where
  root : LevelNode

/-- `Hosts::new()`. -/
def Hosts.new : Hosts := ⟨LevelNode.new⟩

/-- The loop body of `Hosts::insert`: walk/create the path of the
already reversed label list and set the terminal node's payload. -/
def insertGo : List String → MatchType → LevelNode → LevelNode
  | [], ip, .mk lvs _ => .mk lvs ip
  | lv :: rest, ip, .mk lvs nip =>
      let child := (assocGet lvs lv).getD LevelNode.new
      .mk (assocSet lvs lv (insertGo rest ip child)) nip

/-- `Hosts::insert`: iterate the domain labels in reverse
(`domain.iter().rev()`). -/
def Hosts.insert (h : Hosts) (domain : List String) (ip : MatchType) : Hosts :=
  ⟨insertGo domain.reverse ip h.root⟩

/-- The final `match ip_ptr` of `Hosts::matches`; the early
`return Some(vx)` of the `Server` arm also factors through the
`Server` case here. -/
def matchTypeIp : MatchType → Option IpAddr
  | .none => Option.none
  | .subdomain v => some v
  | .server v => some v

/-- The loop of `Hosts::matches` over the reversed label list.  `lvl` is
incremented at the top of each iteration, so every comparison uses
`lvl + 1`; `ptr` is the current node and `ipPtr` is the `ip_ptr`
variable.  Note that both the `None` and the `Subdomain` payloads of a
visited child overwrite `ip_ptr` (the Rust `_` arm), while a `Server`
payload at the wrong depth leaves it unchanged. -/
def matchesGo (label_count : Nat) : List String → LevelNode → MatchType → Nat → Option IpAddr
  | [], _, ipPtr, _ => matchTypeIp ipPtr
  | lv :: rest, ptr, ipPtr, lvl =>
      if ptr.next_lvs.isEmpty then matchTypeIp ipPtr
      else
        match assocGet ptr.next_lvs lv with
        | Option.none => matchTypeIp ipPtr
        | some v =>
          match v.ip with
          | .server vx =>
              if label_count = lvl + 1 then some vx
              else matchesGo label_count rest v ipPtr (lvl + 1)
          | .none => matchesGo label_count rest v v.ip (lvl + 1)
          | .subdomain w => matchesGo label_count rest v (.subdomain w) (lvl + 1)

/-- `Hosts::matches`: `ip_ptr` starts at the root's payload, `lvl` at 0,
and the walk consumes the reversed labels of the queried domain. -/
def Hosts.matches (h : Hosts) (domain : List String) : Option IpAddr :=
  matchesGo domain.length domain.reverse h.root h.root.ip 0

/-- A concrete subdomain entry ip used in the counterexamples. -/
def ip1 : IpAddr := .v4 1 1 1 1

/-- A second concrete subdomain entry ip. -/
def ip2 : IpAddr := .v4 2 2 2 2

/-- A hosts table with `apple.com -> Subdomain(ip1)` and
`a.b.apple.com -> Subdomain(ip2)` inserted. -/
def hostsCex : Hosts :=
  (Hosts.new.insert ["apple", "com"] (.subdomain ip1)).insert
    ["a", "b", "apple", "com"] (.subdomain ip2)

/-- DNS response code (external message library). Only `NoError` is built
by the embedded code. -/
inductive Rcode where
  | noError
  | other (code : Nat)
  deriving DecidableEq, Repr

/-- DNS class; `internet` is `Class::In`. -/
inductive DnsClass where
  | internet
  | other (code : Nat)
  deriving DecidableEq, Repr

/-- Record data: an `A` record (four octets) or an `AAAA` record (eight
16-bit groups). -/
inductive RData where
  | a (o0 o1 o2 o3 : Nat)
  | aaaa (g0 g1 g2 g3 g4 g5 g6 g7 : Nat)
  deriving DecidableEq, Repr

/-- A question of the question section: name, qtype, qclass. -/
structure Question where
  qname : List String
  qtype : Nat
  qclass : Nat
  deriving DecidableEq, Repr

/-- A resource record as built by the answer builder. -/
structure DnsRecord where
  owner : List String
  rclass : DnsClass
  ttl : Nat
  rdata : RData
  deriving DecidableEq, Repr

/-- A DNS message, reduced to the parts the embedded code reads or
writes: transaction id, response code, question section, answer
section (external message library, spec section 6). -/
structure Msg where
  qid : Nat
  rcode : Rcode
  questions : List Question
  answers : List DnsRecord
  deriving DecidableEq, Repr

/-- The empty (default) message. -/
def Msg.empty : Msg := ⟨0, .noError, [], []⟩

instance : Inhabited Msg := ⟨Msg.empty⟩

/-- `State` from `droute/src/router/table.rs`: per-query response being
composed plus the immutable client query. -/
structure State where
  resp : Msg
  query : Msg

/-- Modelled from the spec: `MessageBuilder::start_answer(query, rcode)`
of the external message library sets the response code, propagates the
transaction id and copies the question section verbatim (spec sections
4.7 and 6), starting with an empty answer section. -/
def startAnswer (query : Msg) (rcode : Rcode) : Msg :=
  { qid := query.qid, rcode := rcode, questions := query.questions, answers := [] }

/-- Modelled from the spec: `builder.push(record)` of the external
message library appends one record to the answer section. -/
def pushRecord (m : Msg) (rec : DnsRecord) : Msg :=
  { m with answers := m.answers ++ [rec] }

/-- `fast_answer` from `droute/src/router/script/utils/fastanswer.rs`:
start a `NoError` answer for the query and push one `A` record with the
query's qname as owner, class IN, ttl 86400.  The
`query.first_question().unwrap()` panic on a questionless message is
modelled as `Option.none`. -/
def fast_answer (query : Msg) (a b c d : Nat) : Option Msg :=
  let builder := startAnswer query .noError
  match query.questions.head? with
  | Option.none => Option.none
  | some q => some (pushRecord builder ⟨q.qname, .internet, 86400, .a a b c d⟩)

/-- `fast_answer_ip` from the same file: as `fast_answer` but the record
type (`A` or `AAAA`) follows the address family of the given ip. -/
def fast_answer_ip (query : Msg) (ip : IpAddr) : Option Msg :=
  let builder := startAnswer query .noError
  match ip with
  | .v4 a b c d =>
      match query.questions.head? with
      | Option.none => Option.none
      | some q => some (pushRecord builder ⟨q.qname, .internet, 86400, .a a b c d⟩)
  | .v6 g0 g1 g2 g3 g4 g5 g6 g7 =>
      match query.questions.head? with
      | Option.none => Option.none
      | some q =>
          some (pushRecord builder ⟨q.qname, .internet, 86400, .aaaa g0 g1 g2 g3 g4 g5 g6 g7⟩)

/-- Split a character list at every character satisfying `p`; like
Rust's `str::split`, adjacent separators yield empty pieces. -/
def splitByPred (p : Char → Bool) : List Char → List (List Char)
  | [] => [[]]
  | c :: rest =>
      let r := splitByPred p rest
      if p c then [] :: r
      else
        match r with
        | h :: t => (c :: h) :: t
        | [] => [[c]]

/-- `str::split(sep)`. -/
def splitOnChar (sep : Char) (l : List Char) : List (List Char) :=
  splitByPred (fun c => c = sep) l

/-- `str::split_whitespace`: split on whitespace and drop empty pieces. -/
def splitWhitespaceModel (l : List Char) : List (List Char) :=
  (splitByPred Char.isWhitespace l).filter (fun t => ! t.isEmpty)

/-- The character class accepted in the name field of a hosts line:
`is_ascii_alphabetic | is_ascii_digit | '-' | '.'`. -/
def hostNameChar (c : Char) : Bool :=
  c.isAlpha || c.isDigit || c = '-' || c = '.'

/-- Value of a list of decimal digit characters. -/
def digitsToNat (l : List Char) : Nat :=
  l.foldl (fun acc c => acc * 10 + (c.toNat - 48)) 0

/-- Modelled from the spec: `std::net::Ipv4Addr::from_str` of the
external standard library parses exactly a dotted quad of decimal
octets, each without sign, without a redundant leading zero, and at most
255. -/
def ipv4FromStr (l : List Char) : Option (Nat × Nat × Nat × Nat) :=
  match splitOnChar '.' l with
  | [p0, p1, p2, p3] =>
      if (p0.all Char.isDigit && ! p0.isEmpty && (p0.length = 1 || p0.head? ≠ some '0')) &&
         (p1.all Char.isDigit && ! p1.isEmpty && (p1.length = 1 || p1.head? ≠ some '0')) &&
         (p2.all Char.isDigit && ! p2.isEmpty && (p2.length = 1 || p2.head? ≠ some '0')) &&
         (p3.all Char.isDigit && ! p3.isEmpty && (p3.length = 1 || p3.head? ≠ some '0')) then
        if digitsToNat p0 ≤ 255 && digitsToNat p1 ≤ 255 &&
           digitsToNat p2 ≤ 255 && digitsToNat p3 ≤ 255 then
          some (digitsToNat p0, digitsToNat p1, digitsToNat p2, digitsToNat p3)
        else Option.none
      else Option.none
  | _ => Option.none

/-- Modelled from the spec: `Dname::from_str` of the external message
library splits a presentation-format name into its labels, rejecting
empty labels, and accepts an optional trailing dot (absolute form). -/
def dnameFromStr (l : List Char) : Option (List String) :=
  if l = ['.'] then some []
  else
    let body := if l.getLast? = some '.' then l.dropLast else l
    let parts := splitOnChar '.' body
    if parts.any (fun p => p.isEmpty) then Option.none
    else some (parts.map (fun p => String.mk p))

/-- Outcome classification for `into_hosts_config`: the function either
returns a config, propagates a `FromStrError` from `Dname::from_str`
(the question-mark operator), or panics (out-of-bounds indexing of the
split fields, or `Ipv4Addr::from_str(..).unwrap()`). -/
inductive HostsParseErr where
  | fromStr
  | panicked
  deriving DecidableEq, Repr

/-- The per-line loop of `into_hosts_config` from
`droute/src/router/script/utils/hosts.rs`.  Empty lines are skipped; a
line whose name field contains a character outside the accepted class is
skipped (short-circuiting before the ip field is read); otherwise the
ip field must parse as an IPv4 address (the entry is `Server` when the
field starts with `!`, `Subdomain` otherwise) or the `unwrap` panics. -/
def intoHostsGo : List (List Char) → List (List String × MatchType) →
    Except HostsParseErr (List (List String × MatchType))
  | [], acc => .ok acc
  | line :: rest, acc =>
    if line.isEmpty then intoHostsGo rest acc
    else
      match splitWhitespaceModel line with
      | [] => .error .panicked
      | c0 :: ctail =>
        if ! c0.all hostNameChar then intoHostsGo rest acc
        else
          match ctail with
          | [] => .error .panicked
          | c1 :: _ =>
            if c1.isEmpty then intoHostsGo rest acc
            else
              match dnameFromStr c0 with
              | Option.none => .error .fromStr
              | some name =>
                match c1 with
                | [] => .error .panicked
                | ch :: c1tail =>
                  if ch = '!' then
                    match ipv4FromStr c1tail with
                    | Option.none => .error .panicked
                    | some (a, b, c, d) =>
                        intoHostsGo rest (acc ++ [(name, .server (.v4 a b c d))])
                  else
                    match ipv4FromStr c1 with
                    | Option.none => .error .panicked
                    | some (a, b, c, d) =>
                        intoHostsGo rest (acc ++ [(name, .subdomain (.v4 a b c d))])

/-- `into_hosts_config`: split the input on newlines and process each
line. -/
def into_hosts_config (list : String) :
    Except HostsParseErr (List (List String × MatchType)) :=
  intoHostsGo (splitOnChar '\n' list.data) []

/-- `TableError` from `droute/src/router/table.rs`.  The payloads of the
transparent `MatchError`/`ActionError` wrappers are elided (the embedded
functions never construct them with data).  `outOfFuel` is this
embedding's sentinel for nontermination of the unbounded Rust recursion;
the fuel-sufficiency lemma below shows `tableNew` never produces it. -/
inductive TableError where
  | matchError
  | actionError
  | unusedRules (tags : List String)
  | ruleRecursion (tag : String)
  | undefinedTag (tag : String)
  | multipleDef (tag : String)
  | outOfFuel
  deriving DecidableEq, Repr

/-- Modelled from the spec: `ValidateCell` (crate root, not under
`src/`) keeps a per-tag call-depth counter and a usage bit; entering a
tag increments the counter and sets the usage bit, exiting decrements
the counter (spec section 4.4). -/
structure ValidateCell where
  used : Bool
  value : Nat
  deriving DecidableEq, Repr

instance : Inhabited ValidateCell := ⟨⟨false, 0⟩⟩

/-- `ValidateCell::val`. -/
def ValidateCell.val (c : ValidateCell) : Nat := c.value

/-- `ValidateCell::add`: sets the usage bit and increments. -/
def ValidateCell.add (c : ValidateCell) (n : Nat) : ValidateCell :=
  ⟨true, c.value + n⟩

/-- `ValidateCell::sub`: decrements, leaving the usage bit. -/
def ValidateCell.sub (c : ValidateCell) (n : Nat) : ValidateCell :=
  ⟨c.used, c.value - n⟩

/-- Modelled from the spec: an action (`rule/actions`, not under `src/`)
declares the upstream labels it references and applies a state
transformation that may fail (spec sections 3 and 4.5); its error
payload is elided, failure is `Option.none`.  (Source name `Action`;
renamed here because Mathlib already declares `Action`.) -/
structure RouteAction where
  used_upstreams : List String
  run : State → Option State

/-- A branch of a rule: ordered action list plus next tag (spec
section 3). -/
structure Branch where
  actions : List RouteAction
  next : String

/-- Modelled from the spec: `Rule` (`rule/mod.rs`, not under `src/`):
tag, matcher predicate over the query state, and the two branches
(spec section 3).  The matcher trait object is embedded as a Boolean
function on the state. -/
structure Rule where
  tag : String
  matcher : State → Bool
  onMatch : Branch
  noMatch : Branch

/-- `Rule::used_upstreams`: the upstream labels referenced by the
actions of both branches (spec invariant I5). -/
def Rule.used_upstreams (r : Rule) : List String :=
  (r.onMatch.actions ++ r.noMatch.actions).flatMap RouteAction.used_upstreams

/-- `HashMap::get` on the rule map (association list model). -/
def lookupRule : List (String × Rule) → String → Option Rule
  | [], _ => Option.none
  | (k, r) :: rest, tag => if k = tag then some r else lookupRule rest tag

/-- Per-tag cell state of the traversal bucket. -/
abbrev Cells := String → ValidateCell

/-- `bucket.get_mut(tag).unwrap().0.add(1)`. -/
def bumpCell (cells : Cells) (tag : String) : Cells :=
  fun k => if k = tag then (cells k).add 1 else cells k

/-- `bucket.get_mut(tag).unwrap().0.sub(1)`. -/
def unbumpCell (cells : Cells) (tag : String) : Cells :=
  fun k => if k = tag then (cells k).sub 1 else cells k

/-- `traverse` from `droute/src/router/table.rs` (renamed here because
Mathlib exports a root-namespace `traverse`): depth-first traversal
of the rule graph.  Entering an undefined tag yields `UndefinedTag`;
entering a tag whose counter is already at least 1 yields
`RuleRecursion`; otherwise the counter is incremented, both branches
whose next tag is not `end` are traversed in order (the `no_match`
branch sees the cells produced by the `on_match` branch), and the
counter is decremented on exit.  The extra fuel argument makes the
recursion structural; fuel exhaustion returns the `outOfFuel`
sentinel. -/
def traverseTable (table : List (String × Rule)) : Nat → Cells → String → Except TableError Cells
  | 0, _, _ => .error .outOfFuel
  | fuel + 1, cells, tag =>
    match lookupRule table tag with
    | Option.none => .error (.undefinedTag tag)
    | some r =>
      if 1 ≤ (cells tag).val then .error (.ruleRecursion tag)
      else
        match (if r.onMatch.next = "end" then Except.ok (bumpCell cells tag)
               else traverseTable table fuel (bumpCell cells tag) r.onMatch.next) with
        | .error e => .error e
        | .ok cells2 =>
          match (if r.noMatch.next = "end" then Except.ok cells2
                 else traverseTable table fuel cells2 r.noMatch.next) with
          | .error e => .error e
          | .ok cells3 => .ok (unbumpCell cells3 tag)

/-- The rule-collection loop of `Table::new`: insert each rule keyed by
its tag, failing with `MultipleDef` on a duplicate tag. -/
def buildMap : List Rule → List (String × Rule) → Except TableError (List (String × Rule))
  | [], acc => .ok acc
  | r :: rest, acc =>
    match lookupRule acc r.tag with
    | some _ => .error (.multipleDef r.tag)
    | Option.none => buildMap rest (acc ++ [(r.tag, r)])

/-- `Table` from `droute/src/router/table.rs`. -/
structure Table where
  rules : List (String × Rule)
  used_upstreams : List String

/-- The `used_upstreams` collection of `Table::new`: the upstreams of
every rule whose usage bit is set after the traversal. -/
def usedUpstreamsOf (table : List (String × Rule)) (cells : Cells) : List String :=
  (table.filter (fun kv => (cells kv.1).used)).flatMap (fun kv => kv.2.used_upstreams)

/-- The `unused` collection of `Table::new`: the tags whose usage bit is
still unset after the traversal. -/
def unusedOf (table : List (String × Rule)) (cells : Cells) : List String :=
  (table.filter (fun kv => ! (cells kv.1).used)).map Prod.fst

/-- `Table::new`: collect the rules into a map (duplicate tags fail
with `MultipleDef`), traverse from `start`, collect the upstreams used
by traversed rules, and fail with `UnusedRules` if any rule was never
visited.  The traversal fuel `|rules| + 1` is proven sufficient
below. -/
def tableNew (ruleList : List Rule) : Except TableError Table :=
  match buildMap ruleList [] with
  | .error e => .error e
  | .ok table =>
    match traverseTable table (table.length + 1) (fun _ => default) "start" with
    | .error e => .error e
    | .ok cells =>
      if (unusedOf table cells).isEmpty then .ok ⟨table, usedUpstreamsOf table cells⟩
      else .error (.unusedRules (unusedOf table cells))

/-- Apply a branch's actions in order; a failing action aborts with
`ActionError` (payload elided). -/
def applyActions : List RouteAction → State → Except TableError State
  | [], s => .ok s
  | a :: rest, s =>
    match a.run s with
    | Option.none => .error .actionError
    | some s' => applyActions rest s'

/-- Modelled from the spec: `Rule::route` (`rule/mod.rs`, not under
`src/`) picks the branch by the matcher's verdict, applies its actions
in order, and returns the branch's next tag (spec section 4.5). -/
def Rule.route (r : Rule) (s : State) : Except TableError (State × String) :=
  let branch := if r.matcher s then r.onMatch else r.noMatch
  match applyActions branch.actions s with
  | .error e => .error e
  | .ok s' => .ok (s', branch.next)

/-- Outcome of `Table::route`: a response, a propagated action error, or
one of the two panics in the source (`query.queries().iter().next()
.unwrap()` on a questionless query; `self.rules.get(&tag).unwrap()` on
an unknown tag).  `hang` is the fuel sentinel standing for a loop that
runs longer than the fuel bound. -/
inductive RouteResult where
  | ok (resp : Msg)
  | err (e : TableError)
  | panicNoQuestion
  | panicUndefinedTag
  | hang
  deriving Repr

/-- The `while tag != "end"` loop of `Table::route`, with fuel counting
loop iterations (hops). -/
def routeGo (table : List (String × Rule)) : Nat → State → String → RouteResult
  | 0, s, tag => if tag = "end" then .ok s.resp else .hang
  | fuel + 1, s, tag =>
    if tag = "end" then .ok s.resp
    else
      match lookupRule table tag with
      | Option.none => .panicUndefinedTag
      | some r =>
        match r.route s with
        | .error e => .err e
        | .ok (s', next) => routeGo table fuel s' next

/-- `Table::route`: unwrap the first question (panicking when the
question section is empty), build the initial state with an empty
response, and run the loop from `start`.  The fuel is `|rules|`: the
termination theorem below shows a validated table reaches `end` within
that many hops. -/
def routeModel (t : Table) (query : Msg) : RouteResult :=
  match query.questions.head? with
  | Option.none => .panicNoQuestion
  | some _ => routeGo t.rules t.rules.length ⟨Msg.empty, query⟩ "start"

/-- Modelled from the spec: the dmatcher domain-set algorithm
(`dmatcher/src/domain.rs`, not under `src/`) reduced to its membership
function. -/
structure DomainAlg where
  contains : String → Bool

/-- `Domain` from `droute/src/router/table/rule/matchers/domain.rs`:
wraps the domain-set algorithm. -/
structure Domain where
  alg : DomainAlg

/-- `Dname::to_utf8` of the external message library: labels joined by
dots. -/
def dnameToUtf8 (labels : List String) : String :=
  String.intercalate "." labels

/-- `Domain::matches`: indexes `state.query.queries()[0]`, which panics
(modelled as `Option.none`) when the question section is empty;
otherwise tests the first question's name against the set. -/
def Domain.matches (d : Domain) (s : State) : Option Bool :=
  match s.query.questions with
  | [] => Option.none
  | q :: _ => some (d.alg.contains (dnameToUtf8 q.qname))

/-- `ParBranch` from `droute/src/router/table/parsed.rs`: a parsed
branch, an action list plus the next tag, generic over the parsed
action type. -/
structure ParBranch (A : Type) where
  seq : List A
  next : String

/-- `ParBranch::default`: empty action list, next tag `end`. -/
def ParBranch.default (A : Type) : ParBranch A := { seq := [], next := "end" }

/-- `ParRule` from `droute/src/router/table/parsed.rs`: tag, matcher
(the `if` field) and the two branches (`then`/`else`). -/
structure ParRule (M A : Type) where
  tag : String
  matcher : M
  on_match : ParBranch A
  no_match : ParBranch A

/-- Modelled from the spec: serde's `#[serde(default =
"ParBranch::default")]` on both branch fields of `ParRule` — a rule
declared with only `tag` and `if` deserializes with both branches
defaulted. -/
def parRuleTagMatcherOnly (M A : Type) (tag : String) (m : M) : ParRule M A :=
  ⟨tag, m, ParBranch.default A, ParBranch.default A⟩

/-- The build loop of `ParBranch::build`: build each parsed action in
order, propagating the first failure. -/
def buildActs (A : Type) (buildAct : A → Except TableError RouteAction) :
    List A → Except TableError (List RouteAction)
  | [] => .ok []
  | a :: rest =>
    match buildAct a with
    | .error e => .error e
    | .ok act =>
      match buildActs A buildAct rest with
      | .error e => .error e
      | .ok acts => .ok (act :: acts)

/-- `ParBranch::build`: the built action list paired with the next
tag. -/
def ParBranch.build (A : Type) (buildAct : A → Except TableError RouteAction)
    (b : ParBranch A) : Except TableError (List RouteAction × String) :=
  match buildActs A buildAct b.seq with
  | .error e => .error e
  | .ok acts => .ok (acts, b.next)

/-- Modelled from the spec: `Rule::parse` (`rule/mod.rs`, not under
`src/`) builds the matcher and both branches of a parsed rule into a
`Rule` (spec section 4.4: matcher and action internals are built and
validated at parse time). -/
def ruleParse (M A : Type) (buildM : M → Except TableError (State → Bool))
    (buildAct : A → Except TableError RouteAction) (pr : ParRule M A) :
    Except TableError Rule :=
  match buildM pr.matcher with
  | .error e => .error e
  | .ok mm =>
    match ParBranch.build A buildAct pr.on_match with
    | .error e => .error e
    | .ok (acts1, n1) =>
      match ParBranch.build A buildAct pr.no_match with
      | .error e => .error e
      | .ok (acts2, n2) => .ok ⟨pr.tag, mm, ⟨acts1, n1⟩, ⟨acts2, n2⟩⟩

/-- An edge of the rule graph: some rule with tag `a` has a branch whose
next tag is `b`, and `b` is not the terminator `end`. -/
def Edge (table : List (String × Rule)) (a b : String) : Prop :=
  b ≠ "end" ∧ ∃ r, lookupRule table a = some r ∧
    (r.onMatch.next = b ∨ r.noMatch.next = b)

/-- Reachability in the rule graph (reflexive-transitive closure of
`Edge`). -/
def Reach (table : List (String × Rule)) (a b : String) : Prop :=
  Relation.ReflTransGen (Edge table) a b

/-- There is a nonempty cycle of the rule graph through `t`. -/
def CycleAt (table : List (String × Rule)) (t : String) : Prop :=
  Relation.TransGen (Edge table) t t

/-- The rule map induced by a rule list with pairwise distinct tags
(what `buildMap` produces when it succeeds). -/
def tableAssoc (l : List Rule) : List (String × Rule) :=
  l.map (fun r => (r.tag, r))

/-- The tags of a rule list. -/
def tagsOf (l : List Rule) : List String :=
  l.map Rule.tag

/-- Number of table entries whose cell counter is zero; the decreasing
measure of the traversal. -/
def zeroCount (table : List (String × Rule)) (cells : Cells) : Nat :=
  match table with
  | [] => 0
  | kv :: rest => (if (cells kv.1).value = 0 then 1 else 0) + zeroCount rest cells

/-- A matcher that always matches (the `Any` matcher). -/
def anyMatcher : State → Bool := fun _ => true

/-- An action-free rule with the given tag and branch targets. -/
def mkRule (tag onNext noNext : String) : Rule :=
  ⟨tag, anyMatcher, ⟨[], onNext⟩, ⟨[], noNext⟩⟩

/-- The single-rule table `{start -> end, end}` and its validated
`Table` value. -/
def startOnlyRules : List Rule := [mkRule "start" "end" "end"]

/-- The validated table built from `startOnlyRules`. -/
def startOnlyTable : Table := ⟨[("start", mkRule "start" "end" "end")], []⟩

/-- A query with one question for `example.com`, qtype 1 (A), class 1
(IN). -/
def exampleQuery : Msg := ⟨7, .noError, [⟨["example", "com"], 1, 1⟩], []⟩

/-- C3 counterexample rules: `start`'s then-branch jumps to the
undefined tag `nowhere` while its else-branch jumps back to `start`. -/
def cycleAndUndefinedRules : List Rule := [mkRule "start" "nowhere" "start"]

/-- The claim's recursion example: `start`'s else branch jumps back to
`start`. -/
def selfLoopRules : List Rule := [mkRule "start" "end" "start"]

/-- C4 counterexample rules: `start` loops on itself and `orphan` is
unreachable. -/
def cycleAndOrphanRules : List Rule :=
  [mkRule "start" "start" "end", mkRule "orphan" "end" "end"]

/-- The claim's unused-rule example: `{start -> end, orphan -> end}`. -/
def orphanRules : List Rule :=
  [mkRule "start" "end" "end", mkRule "orphan" "end" "end"]

/-- C5 counterexample rules: `start`'s then-branch loops on `start`
while its else-branch targets the undefined tag `nowhere`. -/
def loopBeforeUndefinedRules : List Rule := [mkRule "start" "start" "nowhere"]

/-- The claim's undefined-next example: `{start -> next:"nowhere"}`. -/
def nowhereRules : List Rule := [mkRule "start" "nowhere" "nowhere"]

/-- C9 witness rules: both branches of `start` point to `foo` (two
distinct paths reach `foo`), `foo` terminates. -/
def diamondRules : List Rule :=
  [mkRule "start" "foo" "foo", mkRule "foo" "end" "end"]

/-- A domain matcher over an arbitrary set (used to exhibit the
indexing panic of `Domain::matches`). -/
def emptyDomain : Domain := ⟨⟨fun _ => false⟩⟩

/-- C1: the claim states that `Hosts::matches` returns the ip of the
deepest inserted `Subdomain` ancestor and `None` iff no ancestor was
inserted.  In `hostsCex`, the name `apple.com` was inserted as
`Subdomain(ip1)` (witnessed by the second conjunct: `www.apple.com`
resolves to `ip1`), so `b.apple.com` has an inserted `Subdomain`
ancestor; yet `matches` returns `None` for it, because the payload-less
inner node `b` created by the later `a.b.apple.com` insertion overwrites
the tracked best suffix.  This contradicts the claim (and the function's
own doc comment), confirming the spec's intended best-suffix semantics
against a code slip. -/
theorem hosts_matches_drops_subdomain_ancestor :
    hostsCex.matches ["b", "apple", "com"] = Option.none ∧
    hostsCex.matches ["www", "apple", "com"] = some ip1 ∧
    hostsCex.matches ["x", "a", "b", "apple", "com"] = some ip2 :=
  ⟨rfl, rfl, rfl⟩

/-- C6: the claim states the engine never panics on well-typed input,
including a query whose question section is empty.  The code panics on
such a query: `Table::route` unwraps the first question before its loop
(`panicNoQuestion`), and `Domain::matches` indexes `queries()[0]`
(modelled as `Option.none`), so the claim is right about the intent and
the code is in the wrong. -/
theorem route_panics_on_empty_question :
    routeModel startOnlyTable Msg.empty = .panicNoQuestion ∧
    Domain.matches emptyDomain ⟨Msg.empty, Msg.empty⟩ = Option.none :=
  ⟨rfl, rfl⟩

/-- C8: the claim states hosts-file parsing accepts IPv4 or IPv6
addresses and skips blank lines including whitespace-only ones.  The
code parses the ip field exclusively with `Ipv4Addr::from_str(..)
.unwrap()`, so an IPv6 address panics (first conjunct), and a
whitespace-only line passes the `line.is_empty()` test and then panics
indexing the first whitespace-split field (second conjunct).  The third
conjunct shows the intended behaviour on well-formed IPv4 lines,
including the leading `!` marking an exact (`Server`) entry. -/
theorem hosts_parse_panics :
    into_hosts_config "example.com ::1" = .error .panicked ∧
    into_hosts_config "   " = .error .panicked ∧
    into_hosts_config "example.com 1.2.3.4\napple.com !9.9.9.9" =
      .ok [(["example", "com"], .subdomain (.v4 1 2 3 4)),
           (["apple", "com"], .server (.v4 9 9 9 9))] :=
  ⟨rfl, rfl, rfl⟩

/-- C7: for every query that has a first question, `fast_answer` returns
a `NoError` response whose answer section is exactly one `A` record
owned by the query's qname (not the root name), class IN, ttl 86400,
with the four given octets; and `fast_answer_ip` builds an `A` or `AAAA`
record according to the address family of the given ip. -/
theorem fast_answer_spec (query : Msg) (q : Question)
    (h : query.questions.head? = some q)
    (a b c d g0 g1 g2 g3 g4 g5 g6 g7 : Nat) :
    fast_answer query a b c d =
      some ⟨query.qid, .noError, query.questions,
            [⟨q.qname, .internet, 86400, .a a b c d⟩]⟩ ∧
    fast_answer_ip query (.v4 a b c d) =
      some ⟨query.qid, .noError, query.questions,
            [⟨q.qname, .internet, 86400, .a a b c d⟩]⟩ ∧
    fast_answer_ip query (.v6 g0 g1 g2 g3 g4 g5 g6 g7) =
      some ⟨query.qid, .noError, query.questions,
            [⟨q.qname, .internet, 86400, .aaaa g0 g1 g2 g3 g4 g5 g6 g7⟩]⟩ := by
  refine ⟨?_, ?_, ?_⟩ <;>
    simp [fast_answer, fast_answer_ip, startAnswer, pushRecord, h]

/-- Witness for `fast_answer_spec` at the concrete query
`exampleQuery`. -/
theorem fast_answer_spec_witness :
    fast_answer exampleQuery 9 9 9 9 =
      some ⟨7, .noError, [⟨["example", "com"], 1, 1⟩],
            [⟨["example", "com"], .internet, 86400, .a 9 9 9 9⟩]⟩ ∧
    fast_answer_ip exampleQuery (.v4 9 9 9 9) =
      some ⟨7, .noError, [⟨["example", "com"], 1, 1⟩],
            [⟨["example", "com"], .internet, 86400, .a 9 9 9 9⟩]⟩ ∧
    fast_answer_ip exampleQuery (.v6 0 0 0 0 0 0 0 1) =
      some ⟨7, .noError, [⟨["example", "com"], 1, 1⟩],
            [⟨["example", "com"], .internet, 86400, .aaaa 0 0 0 0 0 0 0 1⟩]⟩ :=
  fast_answer_spec exampleQuery ⟨["example", "com"], 1, 1⟩ rfl 9 9 9 9 0 0 0 0 0 0 0 1

/-- C10: `ParBranch::default` is the branch with an empty action list
and next tag `end`; a parsed rule given only a tag and a matcher (both
branch fields defaulted) builds into a rule whose branches are both
`([], end)`, and such a rule routes every query straight to the
terminator on either matcher verdict, leaving the state untouched. -/
theorem par_branch_default_spec (M A : Type)
    (buildM : M → Except TableError (State → Bool))
    (buildAct : A → Except TableError RouteAction) (tag : String) (m : M) :
    (ParBranch.default A).seq = ([] : List A) ∧
    (ParBranch.default A).next = "end" ∧
    ruleParse M A buildM buildAct (parRuleTagMatcherOnly M A tag m) =
      Except.map (fun mm => (⟨tag, mm, ⟨[], "end"⟩, ⟨[], "end"⟩⟩ : Rule)) (buildM m) ∧
    ∀ (mm : State → Bool) (s : State),
      Rule.route ⟨tag, mm, ⟨[], "end"⟩, ⟨[], "end"⟩⟩ s = .ok (s, "end") := by
  refine ⟨rfl, rfl, ?_, ?_⟩
  · cases hb : buildM m <;>
      simp [ruleParse, parRuleTagMatcherOnly, ParBranch.build, buildActs, hb,
        Except.map, ParBranch.default]
  · intro mm s
    cases hms : mm s <;> simp [Rule.route, applyActions, hms]

lemma lookupRule_mem {table : List (String × Rule)} {tag : String} {r : Rule}
    (h : lookupRule table tag = some r) : (tag, r) ∈ table := by
  induction table with
  | nil => simp [lookupRule] at h
  | cons kv rest ih =>
    obtain ⟨k, v⟩ := kv
    by_cases hk : k = tag
    · subst hk
      simp [lookupRule] at h
      simp [h]
    · simp [lookupRule, hk] at h
      exact List.mem_cons_of_mem _ (ih h)

lemma lookupRule_eq_none_iff {table : List (String × Rule)} {tag : String} :
    lookupRule table tag = Option.none ↔ tag ∉ table.map Prod.fst := by
  induction table with
  | nil => simp [lookupRule]
  | cons kv rest ih =>
    obtain ⟨k, v⟩ := kv
    by_cases hk : k = tag
    · subst hk; simp [lookupRule]
    · simp [lookupRule, hk, ih, Ne.symm hk]

lemma lookupRule_isSome_of_mem {table : List (String × Rule)} {tag : String}
    (h : tag ∈ table.map Prod.fst) : ∃ r, lookupRule table tag = some r := by
  cases hl : lookupRule table tag with
  | none => exact absurd h (lookupRule_eq_none_iff.mp hl)
  | some r => exact ⟨r, rfl⟩

lemma tableAssoc_keys (l : List Rule) :
    (tableAssoc l).map Prod.fst = tagsOf l := by
  simp [tableAssoc, tagsOf]

lemma buildMap_ok (l : List Rule) (acc : List (String × Rule))
    (h : (acc.map Prod.fst ++ tagsOf l).Nodup) :
    buildMap l acc = .ok (acc ++ tableAssoc l) := by
  induction l generalizing acc with
  | nil => simp [buildMap, tableAssoc]
  | cons r rest ih =>
    have hnotin : r.tag ∉ acc.map Prod.fst := by
      have hd := (List.nodup_append.mp h).2.2
      intro hmem
      exact hd hmem (by simp [tagsOf])
    have hnone : lookupRule acc r.tag = Option.none :=
      lookupRule_eq_none_iff.mpr hnotin
    have harr : ((acc ++ [(r.tag, r)]).map Prod.fst ++ tagsOf rest).Nodup := by
      have : (acc ++ [(r.tag, r)]).map Prod.fst ++ tagsOf rest =
          acc.map Prod.fst ++ tagsOf (r :: rest) := by
        simp [tagsOf]
      rw [this]; exact h
    have := ih (acc ++ [(r.tag, r)]) harr
    simp only [buildMap, hnone, this, tableAssoc, List.map_cons]
    simp

lemma buildMap_ok_nodup {l : List Rule} {acc table : List (String × Rule)}
    (h : buildMap l acc = .ok table) (hacc : (acc.map Prod.fst).Nodup) :
    (table.map Prod.fst).Nodup := by
  induction l generalizing acc with
  | nil =>
    simp [buildMap] at h
    exact h ▸ hacc
  | cons r rest ih =>
    simp only [buildMap] at h
    cases hl : lookupRule acc r.tag with
    | some v => rw [hl] at h; exact absurd h (by simp)
    | none =>
      rw [hl] at h
      refine ih h ?_
      have hnotin := lookupRule_eq_none_iff.mp hl
      simp [List.nodup_append, hacc, hnotin]

lemma traverse_zero (table : List (String × Rule)) (cells : Cells) (tag : String) :
    traverseTable table 0 cells tag = .error .outOfFuel := rfl

lemma traverse_ok_cases {table : List (String × Rule)} {fuel : Nat}
    {cells : Cells} {tag : String} {out : Cells}
    (h : traverseTable table (fuel + 1) cells tag = .ok out) :
    ∃ r cells2 cells3,
      lookupRule table tag = some r ∧ (cells tag).value = 0 ∧
      (if r.onMatch.next = "end" then Except.ok (bumpCell cells tag)
       else traverseTable table fuel (bumpCell cells tag) r.onMatch.next) = .ok cells2 ∧
      (if r.noMatch.next = "end" then Except.ok cells2
       else traverseTable table fuel cells2 r.noMatch.next) = .ok cells3 ∧
      out = unbumpCell cells3 tag := by
  simp only [traverseTable] at h
  split at h
  · exact absurd h (by simp)
  · rename_i r hl
    split at h
    · exact absurd h (by simp)
    · rename_i hv
      split at h
      · exact absurd h (by simp)
      · rename_i cells2 hOn
        split at h
        · exact absurd h (by simp)
        · rename_i cells3 hNo
          refine ⟨r, cells2, cells3, hl, ?_, hOn, hNo, ?_⟩
          · simp [ValidateCell.val] at hv; omega
          · simpa using h.symm

lemma traverse_err_cases {table : List (String × Rule)} {fuel : Nat}
    {cells : Cells} {tag : String} {e : TableError}
    (h : traverseTable table (fuel + 1) cells tag = .error e) :
    (lookupRule table tag = Option.none ∧ e = .undefinedTag tag) ∨
    (∃ r, lookupRule table tag = some r ∧ 1 ≤ (cells tag).value ∧
      e = .ruleRecursion tag) ∨
    (∃ r, lookupRule table tag = some r ∧ (cells tag).value = 0 ∧
      r.onMatch.next ≠ "end" ∧
      traverseTable table fuel (bumpCell cells tag) r.onMatch.next = .error e) ∨
    (∃ r cells2, lookupRule table tag = some r ∧ (cells tag).value = 0 ∧
      (if r.onMatch.next = "end" then Except.ok (bumpCell cells tag)
       else traverseTable table fuel (bumpCell cells tag) r.onMatch.next) = .ok cells2 ∧
      r.noMatch.next ≠ "end" ∧
      traverseTable table fuel cells2 r.noMatch.next = .error e) := by
  simp only [traverseTable] at h
  split at h
  · rename_i hl
    exact Or.inl ⟨hl, by simpa using h.symm⟩
  · rename_i r hl
    split at h
    · rename_i hv
      exact Or.inr (Or.inl ⟨r, hl, by simpa [ValidateCell.val] using hv,
        by simpa using h.symm⟩)
    · rename_i hv
      have hv0 : (cells tag).value = 0 := by
        simp [ValidateCell.val] at hv; omega
      split at h
      · rename_i e1 hOn
        have he : e1 = e := by simpa using h
        subst he
        by_cases hend : r.onMatch.next = "end"
        · rw [if_pos hend] at hOn; exact absurd hOn (by simp)
        · rw [if_neg hend] at hOn
          exact Or.inr (Or.inr (Or.inl ⟨r, hl, hv0, hend, hOn⟩))
      · rename_i cells2 hOn
        split at h
        · rename_i e2 hNo
          have he : e2 = e := by simpa using h
          subst he
          by_cases hend : r.noMatch.next = "end"
          · rw [if_pos hend] at hNo; exact absurd hNo (by simp)
          · rw [if_neg hend] at hNo
            exact Or.inr (Or.inr (Or.inr ⟨r, cells2, hl, hv0, hOn, hend, hNo⟩))
        · exact absurd h (by simp)

lemma bumpCell_value (cells : Cells) (tag k : String) :
    (bumpCell cells tag k).value =
      if k = tag then (cells k).value + 1 else (cells k).value := by
  unfold bumpCell ValidateCell.add
  split <;> rfl

lemma bumpCell_used (cells : Cells) (tag k : String) :
    (bumpCell cells tag k).used = if k = tag then true else (cells k).used := by
  unfold bumpCell ValidateCell.add
  split <;> rfl

lemma unbumpCell_value (cells : Cells) (tag k : String) :
    (unbumpCell cells tag k).value =
      if k = tag then (cells k).value - 1 else (cells k).value := by
  unfold unbumpCell ValidateCell.sub
  split <;> rfl

lemma unbumpCell_used (cells : Cells) (tag k : String) :
    (unbumpCell cells tag k).used = (cells k).used := by
  unfold unbumpCell ValidateCell.sub
  split <;> rfl

lemma traverse_ok_value {table : List (String × Rule)} :
    ∀ {fuel : Nat} {cells : Cells} {tag : String} {out : Cells},
      traverseTable table fuel cells tag = .ok out →
      ∀ k, (out k).value = (cells k).value := by
  intro fuel
  induction fuel with
  | zero =>
    intro cells tag out h
    rw [traverse_zero] at h
    exact absurd h (by simp)
  | succ fuel ih =>
    intro cells tag out h k
    obtain ⟨r, cells2, cells3, hl, hv0, hOn, hNo, hout⟩ := traverse_ok_cases h
    have h2 : ∀ j, (cells2 j).value = (bumpCell cells tag j).value := by
      by_cases hend : r.onMatch.next = "end"
      · rw [if_pos hend] at hOn
        have : bumpCell cells tag = cells2 := by simpa using hOn
        simp [this]
      · rw [if_neg hend] at hOn
        exact ih hOn
    have h3 : ∀ j, (cells3 j).value = (cells2 j).value := by
      by_cases hend : r.noMatch.next = "end"
      · rw [if_pos hend] at hNo
        have : cells2 = cells3 := by simpa using hNo
        simp [this]
      · rw [if_neg hend] at hNo
        exact ih hNo
    subst hout
    rw [unbumpCell_value, h3, h2, bumpCell_value]
    by_cases hk : k = tag
    · subst hk; simp [hv0]
    · simp [hk]

lemma traverse_ok_used_mono {table : List (String × Rule)} :
    ∀ {fuel : Nat} {cells : Cells} {tag : String} {out : Cells},
      traverseTable table fuel cells tag = .ok out →
      ∀ k, (cells k).used = true → (out k).used = true := by
  intro fuel
  induction fuel with
  | zero =>
    intro cells tag out h
    rw [traverse_zero] at h
    exact absurd h (by simp)
  | succ fuel ih =>
    intro cells tag out h k hk
    obtain ⟨r, cells2, cells3, hl, hv0, hOn, hNo, hout⟩ := traverse_ok_cases h
    have h1 : (bumpCell cells tag k).used = true := by
      rw [bumpCell_used]
      split <;> simp [hk]
    have h2 : (cells2 k).used = true := by
      by_cases hend : r.onMatch.next = "end"
      · rw [if_pos hend] at hOn
        have : bumpCell cells tag = cells2 := by simpa using hOn
        rw [← this]; exact h1
      · rw [if_neg hend] at hOn
        exact ih hOn k h1
    have h3 : (cells3 k).used = true := by
      by_cases hend : r.noMatch.next = "end"
      · rw [if_pos hend] at hNo
        have : cells2 = cells3 := by simpa using hNo
        rw [← this]; exact h2
      · rw [if_neg hend] at hNo
        exact ih hNo k h2
    subst hout
    rw [unbumpCell_used]
    exact h3

lemma zeroCount_congr {table : List (String × Rule)} {cellsA cellsB : Cells}
    (h : ∀ kv ∈ table, (cellsA kv.1).value = (cellsB kv.1).value) :
    zeroCount table cellsA = zeroCount table cellsB := by
  induction table with
  | nil => rfl
  | cons kv rest ih =>
    have hh := h kv (by simp)
    simp only [zeroCount, hh]
    rw [ih (fun kv' hm => h kv' (List.mem_cons_of_mem _ hm))]

lemma zeroCount_bump {table : List (String × Rule)} {cells : Cells}
    {tag : String} {r : Rule} (hnd : (table.map Prod.fst).Nodup)
    (hl : lookupRule table tag = some r) (hv : (cells tag).value = 0) :
    zeroCount table (bumpCell cells tag) + 1 = zeroCount table cells := by
  induction table with
  | nil => simp [lookupRule] at hl
  | cons kv rest ih =>
    obtain ⟨k, v⟩ := kv
    have hnd' : (rest.map Prod.fst).Nodup := (List.nodup_cons.mp hnd).2
    have hknotin : k ∉ rest.map Prod.fst := (List.nodup_cons.mp hnd).1
    by_cases hk : k = tag
    · subst hk
      have htail : zeroCount rest (bumpCell cells k) = zeroCount rest cells := by
        refine zeroCount_congr ?_
        intro kv' hm
        have : kv'.1 ≠ k := by
          intro heq
          exact hknotin (heq ▸ List.mem_map_of_mem Prod.fst hm)
        rw [bumpCell_value, if_neg this]
      have hhead : (bumpCell cells k k).value = 1 := by
        rw [bumpCell_value, if_pos rfl, hv]
      simp only [zeroCount, hhead, htail, hv]
      simp
      omega
    · have hl' : lookupRule rest tag = some r := by
        simpa [lookupRule, hk] using hl
      have hhead : (bumpCell cells tag k).value = (cells k).value := by
        rw [bumpCell_value, if_neg hk]
      have htail := ih hnd' hl'
      simp only [zeroCount, hhead]
      omega

lemma zeroCount_pos {table : List (String × Rule)} {cells : Cells}
    {tag : String} {r : Rule} (hl : lookupRule table tag = some r)
    (hv : (cells tag).value = 0) : 1 ≤ zeroCount table cells := by
  induction table with
  | nil => simp [lookupRule] at hl
  | cons kv rest ih =>
    obtain ⟨k, v⟩ := kv
    by_cases hk : k = tag
    · subst hk
      simp [zeroCount, hv]
    · have hl' : lookupRule rest tag = some r := by
        simpa [lookupRule, hk] using hl
      have := ih hl'
      simp only [zeroCount]
      omega

lemma zeroCount_init (table : List (String × Rule)) :
    zeroCount table (fun _ => default) = table.length := by
  induction table with
  | nil => rfl
  | cons kv rest ih =>
    simp only [zeroCount, ih, List.length_cons]
    simp [default]
    omega

lemma traverse_no_outOfFuel {table : List (String × Rule)}
    (hnd : (table.map Prod.fst).Nodup) :
    ∀ (fuel : Nat) (cells : Cells) (tag : String),
      zeroCount table cells < fuel →
      traverseTable table fuel cells tag ≠ .error .outOfFuel := by
  intro fuel
  induction fuel with
  | zero => intro cells tag hz; exact absurd hz (by omega)
  | succ fuel ih =>
    intro cells tag hz hcontra
    rcases traverse_err_cases hcontra with
      ⟨_, he⟩ | ⟨r, _, _, he⟩ | ⟨r, hl, hv0, hend, hrec⟩ |
      ⟨r, cells2, hl, hv0, hOn, hend, hrec⟩
    · exact absurd he (by simp)
    · exact absurd he (by simp)
    · have hb := zeroCount_bump hnd hl hv0
      exact ih (bumpCell cells tag) r.onMatch.next (by omega) hrec
    · have hb := zeroCount_bump hnd hl hv0
      have hc2 : zeroCount table cells2 = zeroCount table (bumpCell cells tag) := by
        by_cases hend2 : r.onMatch.next = "end"
        · rw [if_pos hend2] at hOn
          have : bumpCell cells tag = cells2 := by simpa using hOn
          rw [this]
        · rw [if_neg hend2] at hOn
          exact zeroCount_congr (fun kv _ => traverse_ok_value hOn kv.1)
      exact ih cells2 r.noMatch.next (by omega) hrec

lemma traverse_err_shape {table : List (String × Rule)} :
    ∀ {fuel : Nat} {cells : Cells} {tag : String} {e : TableError},
      traverseTable table fuel cells tag = .error e →
      e = .outOfFuel ∨ (∃ t, e = .ruleRecursion t) ∨ (∃ t, e = .undefinedTag t) := by
  intro fuel
  induction fuel with
  | zero =>
    intro cells tag e h
    rw [traverse_zero] at h
    exact Or.inl (by simpa using h.symm)
  | succ fuel ih =>
    intro cells tag e h
    rcases traverse_err_cases h with
      ⟨_, he⟩ | ⟨r, _, _, he⟩ | ⟨r, _, _, _, hrec⟩ | ⟨r, cells2, _, _, _, _, hrec⟩
    · exact Or.inr (Or.inr ⟨tag, he⟩)
    · exact Or.inr (Or.inl ⟨tag, he⟩)
    · exact ih hrec
    · exact ih hrec

lemma edge_onMatch {table : List (String × Rule)} {tag : String} {r : Rule}
    (hl : lookupRule table tag = some r) (hend : r.onMatch.next ≠ "end") :
    Edge table tag r.onMatch.next :=
  ⟨hend, r, hl, Or.inl rfl⟩

lemma edge_noMatch {table : List (String × Rule)} {tag : String} {r : Rule}
    (hl : lookupRule table tag = some r) (hend : r.noMatch.next ≠ "end") :
    Edge table tag r.noMatch.next :=
  ⟨hend, r, hl, Or.inr rfl⟩

lemma traverse_ok_no_stacked {table : List (String × Rule)} :
    ∀ {fuel : Nat} {cells : Cells} {tag : String} {out : Cells},
      traverseTable table fuel cells tag = .ok out →
      ∀ y, Reach table tag y → 1 ≤ (cells y).value → False := by
  intro fuel
  induction fuel with
  | zero =>
    intro cells tag out h
    rw [traverse_zero] at h
    exact absurd h (by simp)
  | succ fuel ih =>
    intro cells tag out h y hreach hy
    obtain ⟨r, cells2, cells3, hl, hv0, hOn, hNo, hout⟩ := traverse_ok_cases h
    rcases Relation.ReflTransGen.cases_head hreach with heq | ⟨c, hedge, hrest⟩
    · subst heq; omega
    · obtain ⟨hcne, r2, hl2, hbr⟩ := hedge
      rw [hl] at hl2
      injection hl2 with hrr
      subst hrr
      rcases hbr with hc | hc
      · have hne : r.onMatch.next ≠ "end" := by rw [hc]; exact hcne
        rw [if_neg hne] at hOn
        refine ih hOn y (by rw [hc]; exact hrest) ?_
        rw [bumpCell_value]
        split <;> omega
      · have hne : r.noMatch.next ≠ "end" := by rw [hc]; exact hcne
        rw [if_neg hne] at hNo
        have hval : ∀ j, (cells2 j).value = (bumpCell cells tag j).value := by
          by_cases hend2 : r.onMatch.next = "end"
          · rw [if_pos hend2] at hOn
            have : bumpCell cells tag = cells2 := by simpa using hOn
            simp [this]
          · rw [if_neg hend2] at hOn
            exact traverse_ok_value hOn
        refine ih hNo y (by rw [hc]; exact hrest) ?_
        rw [hval, bumpCell_value]
        split <;> omega

lemma traverse_ok_reach_ok {table : List (String × Rule)} :
    ∀ {fuel : Nat} {cells : Cells} {tag : String} {out : Cells},
      traverseTable table fuel cells tag = .ok out →
      ∀ y, Reach table tag y →
        ∃ f c o, traverseTable table f c y = .ok o := by
  intro fuel
  induction fuel with
  | zero =>
    intro cells tag out h
    rw [traverse_zero] at h
    exact absurd h (by simp)
  | succ fuel ih =>
    intro cells tag out h y hreach
    rcases Relation.ReflTransGen.cases_head hreach with heq | ⟨c, hedge, hrest⟩
    · exact heq ▸ ⟨fuel + 1, _, out, h⟩
    · obtain ⟨r, cells2, cells3, hl, hv0, hOn, hNo, hout⟩ := traverse_ok_cases h
      obtain ⟨hcne, r2, hl2, hbr⟩ := hedge
      rw [hl] at hl2
      injection hl2 with hrr
      subst hrr
      rcases hbr with hc | hc
      · have hne : r.onMatch.next ≠ "end" := by rw [hc]; exact hcne
        rw [if_neg hne] at hOn
        exact ih hOn y (by rw [hc]; exact hrest)
      · have hne : r.noMatch.next ≠ "end" := by rw [hc]; exact hcne
        rw [if_neg hne] at hNo
        exact ih hNo y (by rw [hc]; exact hrest)

lemma traverse_ok_no_cycle {table : List (String × Rule)} {fuel : Nat}
    {cells : Cells} {tag : String} {out : Cells}
    (h : traverseTable table fuel cells tag = .ok out) :
    ∀ t, Reach table tag t → ¬ CycleAt table t := by
  intro t hreach hcyc
  obtain ⟨f, c, o, h'⟩ := traverse_ok_reach_ok h t hreach
  have hcyc' : Relation.TransGen (Edge table) t t := hcyc
  obtain ⟨b, hedge, hreachbt⟩ := Relation.TransGen.head'_iff.mp hcyc'
  cases f with
  | zero =>
    rw [traverse_zero] at h'
    exact absurd h' (by simp)
  | succ f =>
    obtain ⟨r, cells2, cells3, hl, hv0, hOn, hNo, hout⟩ := traverse_ok_cases h'
    obtain ⟨hbne, r2, hl2, hbr⟩ := hedge
    rw [hl] at hl2
    injection hl2 with hrr
    subst hrr
    rcases hbr with hb | hb
    · have hne : r.onMatch.next ≠ "end" := by rw [hb]; exact hbne
      rw [if_neg hne] at hOn
      refine traverse_ok_no_stacked hOn t (by rw [hb]; exact hreachbt) ?_
      rw [bumpCell_value, if_pos rfl]
      omega
    · have hne : r.noMatch.next ≠ "end" := by rw [hb]; exact hbne
      rw [if_neg hne] at hNo
      have hval : ∀ j, (cells2 j).value = (bumpCell c t j).value := by
        by_cases hend2 : r.onMatch.next = "end"
        · rw [if_pos hend2] at hOn
          have heq2 : bumpCell c t = cells2 := by simpa using hOn
          simp [heq2]
        · rw [if_neg hend2] at hOn
          exact traverse_ok_value hOn
      refine traverse_ok_no_stacked hNo t (by rw [hb]; exact hreachbt) ?_
      rw [hval, bumpCell_value, if_pos rfl]
      omega

lemma traverse_recursion_cycle {table : List (String × Rule)} :
    ∀ {fuel : Nat} {cells : Cells} {tag t : String},
      traverseTable table fuel cells tag = .error (.ruleRecursion t) →
      (∀ k, 1 ≤ (cells k).value → Relation.TransGen (Edge table) k tag) →
      Reach table "start" tag →
      CycleAt table t ∧ Reach table "start" t := by
  intro fuel
  induction fuel with
  | zero =>
    intro cells tag t h
    rw [traverse_zero] at h
    exact absurd h (by simp)
  | succ fuel ih =>
    intro cells tag t h hinv hstart
    rcases traverse_err_cases h with
      ⟨_, he⟩ | ⟨r, hl, hv, he⟩ | ⟨r, hl, hv0, hend, hrec⟩ |
      ⟨r, cells2, hl, hv0, hOn, hend, hrec⟩
    · exact absurd he (by simp)
    · have ht : t = tag := by
        injection he
      subst ht
      exact ⟨hinv t hv, hstart⟩
    · refine ih hrec ?_ (hstart.tail (edge_onMatch hl hend))
      intro k hk
      rw [bumpCell_value] at hk
      by_cases hkt : k = tag
      · subst hkt
        exact Relation.TransGen.single (edge_onMatch hl hend)
      · rw [if_neg hkt] at hk
        exact (hinv k hk).tail (edge_onMatch hl hend)
    · have hval : ∀ j, (cells2 j).value = (bumpCell cells tag j).value := by
        by_cases hend2 : r.onMatch.next = "end"
        · rw [if_pos hend2] at hOn
          have heq2 : bumpCell cells tag = cells2 := by simpa using hOn
          simp [heq2]
        · rw [if_neg hend2] at hOn
          exact traverse_ok_value hOn
      refine ih hrec ?_ (hstart.tail (edge_noMatch hl hend))
      intro k hk
      rw [hval, bumpCell_value] at hk
      by_cases hkt : k = tag
      · subst hkt
        exact Relation.TransGen.single (edge_noMatch hl hend)
      · rw [if_neg hkt] at hk
        exact (hinv k hk).tail (edge_noMatch hl hend)

lemma traverse_no_undefined {table : List (String × Rule)}
    (hclosed : ∀ kv ∈ table,
      (kv.2.onMatch.next = "end" ∨ kv.2.onMatch.next ∈ table.map Prod.fst) ∧
      (kv.2.noMatch.next = "end" ∨ kv.2.noMatch.next ∈ table.map Prod.fst)) :
    ∀ {fuel : Nat} {cells : Cells} {tag u : String},
      tag ∈ table.map Prod.fst →
      traverseTable table fuel cells tag ≠ .error (.undefinedTag u) := by
  intro fuel
  induction fuel with
  | zero =>
    intro cells tag u htag hcontra
    rw [traverse_zero] at hcontra
    exact absurd hcontra (by simp)
  | succ fuel ih =>
    intro cells tag u htag hcontra
    rcases traverse_err_cases hcontra with
      ⟨hnone, _⟩ | ⟨r, _, _, he⟩ | ⟨r, hl, _, hend, hrec⟩ |
      ⟨r, cells2, hl, _, _, hend, hrec⟩
    · exact absurd htag (lookupRule_eq_none_iff.mp hnone)
    · exact absurd he (by simp)
    · rcases (hclosed (tag, r) (lookupRule_mem hl)).1 with h1 | h1
      · exact hend h1
      · exact ih h1 hrec
    · rcases (hclosed (tag, r) (lookupRule_mem hl)).2 with h1 | h1
      · exact hend h1
      · exact ih h1 hrec

lemma traverse_undefined_reach {table : List (String × Rule)} :
    ∀ {fuel : Nat} {cells : Cells} {tag u : String},
      traverseTable table fuel cells tag = .error (.undefinedTag u) →
      Reach table "start" tag →
      Reach table "start" u ∧ lookupRule table u = Option.none := by
  intro fuel
  induction fuel with
  | zero =>
    intro cells tag u h
    rw [traverse_zero] at h
    exact absurd h (by simp)
  | succ fuel ih =>
    intro cells tag u h hstart
    rcases traverse_err_cases h with
      ⟨hnone, he⟩ | ⟨r, _, _, he⟩ | ⟨r, hl, _, hend, hrec⟩ |
      ⟨r, cells2, hl, _, _, hend, hrec⟩
    · have hu : u = tag := by injection he
      subst hu
      exact ⟨hstart, hnone⟩
    · exact absurd he (by simp)
    · exact ih hrec (hstart.tail (edge_onMatch hl hend))
    · exact ih hrec (hstart.tail (edge_noMatch hl hend))

lemma traverse_ok_reach_used {table : List (String × Rule)} :
    ∀ {fuel : Nat} {cells : Cells} {tag : String} {out : Cells},
      traverseTable table fuel cells tag = .ok out →
      ∀ u, Reach table tag u →
        (∃ r, lookupRule table u = some r) ∧ (out u).used = true := by
  intro fuel
  induction fuel with
  | zero =>
    intro cells tag out h
    rw [traverse_zero] at h
    exact absurd h (by simp)
  | succ fuel ih =>
    intro cells tag out h u hreach
    obtain ⟨r, cells2, cells3, hl, hv0, hOn, hNo, hout⟩ := traverse_ok_cases h
    have hstep2 : ∀ j, (cells2 j).used = true → (cells3 j).used = true := by
      intro j hj
      by_cases hend2 : r.noMatch.next = "end"
      · rw [if_pos hend2] at hNo
        have heq2 : cells2 = cells3 := by simpa using hNo
        rw [← heq2]; exact hj
      · rw [if_neg hend2] at hNo
        exact traverse_ok_used_mono hNo j hj
    have hstep1 : ∀ j, (bumpCell cells tag j).used = true → (cells2 j).used = true := by
      intro j hj
      by_cases hend2 : r.onMatch.next = "end"
      · rw [if_pos hend2] at hOn
        have heq2 : bumpCell cells tag = cells2 := by simpa using hOn
        rw [← heq2]; exact hj
      · rw [if_neg hend2] at hOn
        exact traverse_ok_used_mono hOn j hj
    rcases Relation.ReflTransGen.cases_head hreach with heq | ⟨c, hedge, hrest⟩
    · subst heq
      refine ⟨⟨r, hl⟩, ?_⟩
      subst hout
      rw [unbumpCell_used]
      refine hstep2 tag (hstep1 tag ?_)
      rw [bumpCell_used, if_pos rfl]
    · obtain ⟨hcne, r2, hl2, hbr⟩ := hedge
      rw [hl] at hl2
      injection hl2 with hrr
      subst hrr
      rcases hbr with hc | hc
      · have hne : r.onMatch.next ≠ "end" := by rw [hc]; exact hcne
        rw [if_neg hne] at hOn
        obtain ⟨hlu, hused⟩ := ih hOn u (by rw [hc]; exact hrest)
        refine ⟨hlu, ?_⟩
        subst hout
        rw [unbumpCell_used]
        exact hstep2 u hused
      · have hne : r.noMatch.next ≠ "end" := by rw [hc]; exact hcne
        rw [if_neg hne] at hNo
        obtain ⟨hlu, hused⟩ := ih hNo u (by rw [hc]; exact hrest)
        refine ⟨hlu, ?_⟩
        subst hout
        rw [unbumpCell_used]
        exact hused

lemma traverse_ok_used_reach {table : List (String × Rule)} :
    ∀ {fuel : Nat} {cells : Cells} {tag : String} {out : Cells},
      traverseTable table fuel cells tag = .ok out →
      ∀ k, (out k).used = true →
        (cells k).used = true ∨ Reach table tag k := by
  intro fuel
  induction fuel with
  | zero =>
    intro cells tag out h
    rw [traverse_zero] at h
    exact absurd h (by simp)
  | succ fuel ih =>
    intro cells tag out h k hk
    obtain ⟨r, cells2, cells3, hl, hv0, hOn, hNo, hout⟩ := traverse_ok_cases h
    subst hout
    rw [unbumpCell_used] at hk
    have h3 : (cells2 k).used = true ∨ Reach table tag k := by
      by_cases hend2 : r.noMatch.next = "end"
      · rw [if_pos hend2] at hNo
        have heq2 : cells2 = cells3 := by simpa using hNo
        exact Or.inl (heq2 ▸ hk)
      · rw [if_neg hend2] at hNo
        rcases ih hNo k hk with h1 | h1
        · exact Or.inl h1
        · exact Or.inr (Relation.ReflTransGen.head (edge_noMatch hl hend2) h1)
    rcases h3 with h3 | h3
    · have h2 : (bumpCell cells tag k).used = true ∨ Reach table tag k := by
        by_cases hend2 : r.onMatch.next = "end"
        · rw [if_pos hend2] at hOn
          have heq2 : bumpCell cells tag = cells2 := by simpa using hOn
          exact Or.inl (heq2 ▸ h3)
        · rw [if_neg hend2] at hOn
          rcases ih hOn k h3 with h1 | h1
          · exact Or.inl h1
          · exact Or.inr (Relation.ReflTransGen.head (edge_onMatch hl hend2) h1)
      rcases h2 with h2 | h2
      · rw [bumpCell_used] at h2
        by_cases hkt : k = tag
        · subst hkt
          exact Or.inr Relation.ReflTransGen.refl
        · rw [if_neg hkt] at h2
          exact Or.inl h2
      · exact Or.inr h2
    · exact Or.inr h3

lemma routeGo_end (table : List (String × Rule)) (f : Nat) (s : State) :
    routeGo table f s "end" = .ok s.resp := by
  cases f <;> simp [routeGo]

lemma rule_route_next {r : Rule} {s s' : State} {next : String}
    (h : r.route s = .ok (s', next)) :
    next = r.onMatch.next ∨ next = r.noMatch.next := by
  simp only [Rule.route] at h
  cases ha : applyActions (if r.matcher s then r.onMatch else r.noMatch).actions s with
  | error e => rw [ha] at h; exact absurd h (by simp)
  | ok s2 =>
    rw [ha] at h
    simp at h
    by_cases hm : r.matcher s
    · rw [if_pos hm] at h
      exact Or.inl h.2.symm
    · rw [if_neg hm] at h
      exact Or.inr h.2.symm

lemma traverse_ok_route_terminates {table : List (String × Rule)}
    (hnd : (table.map Prod.fst).Nodup) :
    ∀ {fuel : Nat} {cells : Cells} {tag : String} {out : Cells},
      traverseTable table fuel cells tag = .ok out →
      ∀ (s : State) (fuelR : Nat), zeroCount table cells ≤ fuelR →
        routeGo table fuelR s tag ≠ .hang ∧
        routeGo table fuelR s tag ≠ .panicUndefinedTag := by
  intro fuel
  induction fuel with
  | zero =>
    intro cells tag out h
    rw [traverse_zero] at h
    exact absurd h (by simp)
  | succ fuel ih =>
    intro cells tag out h s fuelR hz
    by_cases htag : tag = "end"
    · subst htag
      rw [routeGo_end]
      exact ⟨by simp, by simp⟩
    · obtain ⟨r, cells2, cells3, hl, hv0, hOn, hNo, hout⟩ := traverse_ok_cases h
      have hzpos : 1 ≤ zeroCount table cells := zeroCount_pos hl hv0
      have hb := zeroCount_bump hnd hl hv0
      cases fuelR with
      | zero => omega
      | succ fuelR =>
        cases hr : r.route s with
        | error e =>
          have hgoal : routeGo table (fuelR + 1) s tag = .err e := by
            simp only [routeGo, if_neg htag, hl, hr]
          rw [hgoal]
          exact ⟨by simp, by simp⟩
        | ok p =>
          obtain ⟨s', next⟩ := p
          have hgoal : routeGo table (fuelR + 1) s tag =
              routeGo table fuelR s' next := by
            simp only [routeGo, if_neg htag, hl, hr]
          rw [hgoal]
          by_cases hnext : next = "end"
          · subst hnext
            rw [routeGo_end]
            exact ⟨by simp, by simp⟩
          · rcases rule_route_next hr with hc | hc
            · have hne : r.onMatch.next ≠ "end" := by rw [← hc]; exact hnext
              rw [if_neg hne] at hOn
              have hih := ih hOn s' fuelR (by omega)
              rw [← hc] at hih
              exact hih
            · have hne : r.noMatch.next ≠ "end" := by rw [← hc]; exact hnext
              rw [if_neg hne] at hNo
              have hc2 : zeroCount table cells2 =
                  zeroCount table (bumpCell cells tag) := by
                by_cases hend2 : r.onMatch.next = "end"
                · rw [if_pos hend2] at hOn
                  have heq2 : bumpCell cells tag = cells2 := by simpa using hOn
                  rw [heq2]
                · rw [if_neg hend2] at hOn
                  exact zeroCount_congr (fun kv _ => traverse_ok_value hOn kv.1)
              have hih := ih hNo s' fuelR (by omega)
              rw [← hc] at hih
              exact hih

lemma tableNew_ok_inv {l : List Rule} {t : Table} (h : tableNew l = .ok t) :
    ∃ table cells, buildMap l [] = .ok table ∧
      traverseTable table (table.length + 1) (fun _ => default) "start" = .ok cells ∧
      t.rules = table := by
  unfold tableNew at h
  split at h
  · exact absurd h (by simp)
  · rename_i table hb
    split at h
    · exact absurd h (by simp)
    · rename_i cells ht
      split at h
      · injection h with h2
        exact ⟨table, cells, hb, ht, by rw [← h2]⟩
      · exact absurd h (by simp)

lemma tableNew_err_of_traverse {l : List Rule} {table : List (String × Rule)}
    {e : TableError} (hb : buildMap l [] = .ok table)
    (ht : traverseTable table (table.length + 1) (fun _ => default) "start" = .error e) :
    tableNew l = .error e := by
  unfold tableNew
  simp only [hb, ht]

lemma mem_keys_iff {table : List (String × Rule)} {k : String} :
    k ∈ table.map Prod.fst ↔ ∃ r, (k, r) ∈ table := by
  constructor
  · intro h
    obtain ⟨p, hp, hfst⟩ := List.mem_map.mp h
    exact ⟨p.2, by rwa [← hfst, Prod.mk.eta]⟩
  · rintro ⟨r, hr⟩
    exact List.mem_map_of_mem Prod.fst hr

lemma mem_unusedOf_iff {table : List (String × Rule)} {out : Cells} {k : String} :
    k ∈ unusedOf table out ↔ ∃ r, (k, r) ∈ table ∧ (out k).used = false := by
  unfold unusedOf
  constructor
  · intro h
    obtain ⟨p, hp, hfst⟩ := List.mem_map.mp h
    obtain ⟨hmem, hused⟩ := List.mem_filter.mp hp
    rw [Bool.not_eq_eq_eq_not, Bool.not_true] at hused
    exact ⟨p.2, by rwa [← hfst, Prod.mk.eta], by rwa [← hfst]⟩
  · rintro ⟨r, hr, hused⟩
    refine List.mem_map_of_mem Prod.fst (List.mem_filter.mpr ⟨hr, ?_⟩)
    simp [hused]

lemma traverse_start_ok_of {table : List (String × Rule)}
    (hnd : (table.map Prod.fst).Nodup)
    (hstart : "start" ∈ table.map Prod.fst)
    (hclosed : ∀ kv ∈ table,
      (kv.2.onMatch.next = "end" ∨ kv.2.onMatch.next ∈ table.map Prod.fst) ∧
      (kv.2.noMatch.next = "end" ∨ kv.2.noMatch.next ∈ table.map Prod.fst))
    (hnocyc : ∀ t, Reach table "start" t → ¬ CycleAt table t) :
    ∃ out, traverseTable table (table.length + 1) (fun _ => default) "start" = .ok out := by
  cases hres : traverseTable table (table.length + 1) (fun _ => default) "start" with
  | ok out => exact ⟨out, rfl⟩
  | error e =>
    rcases traverse_err_shape hres with he | ⟨t, he⟩ | ⟨t, he⟩
    · subst he
      have hz : zeroCount table (fun _ => default) < table.length + 1 := by
        rw [zeroCount_init]; omega
      exact absurd hres (traverse_no_outOfFuel hnd _ _ _ hz)
    · subst he
      obtain ⟨hcyc, hreach⟩ := traverse_recursion_cycle hres
        (fun k hk => absurd hk (by decide)) Relation.ReflTransGen.refl
      exact absurd hcyc (hnocyc t hreach)
    · subst he
      exact absurd hres (traverse_no_undefined hclosed hstart)

lemma tableNew_ok_of {l : List Rule} {table : List (String × Rule)} {cells : Cells}
    (hb : buildMap l [] = .ok table)
    (ht : traverseTable table (table.length + 1) (fun _ => default) "start" = .ok cells)
    (hall : ∀ kv ∈ table, (cells kv.1).used = true) :
    tableNew l = .ok ⟨table, usedUpstreamsOf table cells⟩ := by
  unfold tableNew
  simp only [hb, ht]
  have hempty : unusedOf table cells = [] := by
    unfold unusedOf
    rw [List.filter_eq_nil_iff.mpr (fun kv hm => by simp [hall kv hm])]
    rfl
  rw [hempty]
  rfl

/-- C2: every table accepted by `Table::new` terminates `route` on every
query: with fuel `|rules|` the evaluation loop never runs out of hops
(it reaches `end`, or exits early on an action error, within `|rules|`
iterations) and every `rules[tag]` lookup during the loop succeeds (the
`unwrap` panic is unreachable). -/
theorem table_route_terminates (l : List Rule) (t : Table)
    (h : tableNew l = .ok t) (q : Msg) :
    routeModel t q ≠ .hang ∧ routeModel t q ≠ .panicUndefinedTag := by
  obtain ⟨table, cells, hb, ht, hrules⟩ := tableNew_ok_inv h
  have hnd := buildMap_ok_nodup hb (by simp)
  unfold routeModel
  cases hq : q.questions.head? with
  | none => exact ⟨by simp, by simp⟩
  | some q1 =>
    rw [hrules]
    have hz : zeroCount table (fun _ => default) ≤ table.length := by
      rw [zeroCount_init]
    exact traverse_ok_route_terminates hnd ht _ table.length hz

/-- Witness for `table_route_terminates` at the concrete single-rule
table `{start -> end}` and the query for `example.com`. -/
theorem table_route_terminates_witness :
    routeModel startOnlyTable exampleQuery ≠ .hang ∧
    routeModel startOnlyTable exampleQuery ≠ .panicUndefinedTag :=
  table_route_terminates startOnlyRules startOnlyTable rfl exampleQuery

/-- C3 counterexample: a rule list whose graph has a cycle reachable
from `start` (the self-loop through the else branch) is nevertheless
rejected with `UndefinedTag`, not `RuleRecursion`, because the
then-branch targets an undefined tag and the traversal explores it
first. -/
theorem table_cycle_counterexample :
    tableNew cycleAndUndefinedRules = .error (.undefinedTag "nowhere") ∧
    Reach (tableAssoc cycleAndUndefinedRules) "start" "start" ∧
    CycleAt (tableAssoc cycleAndUndefinedRules) "start" := by
  refine ⟨rfl, Relation.ReflTransGen.refl, Relation.TransGen.single ?_⟩
  exact ⟨by decide, mkRule "start" "nowhere" "start", rfl, Or.inr rfl⟩

/-- C3 amended: for every rule list with pairwise distinct tags all of
whose branch targets are defined (each `next` is `end` or the tag of a
rule), if the rule graph has a cycle reachable from `start` then
`Table::new` rejects the list with `RuleRecursion` naming a tag that is
reachable from `start` and lies on a cycle. -/
theorem table_cycle_rejected (l : List Rule)
    (hnd : (tagsOf l).Nodup)
    (hclosed : ∀ r ∈ l,
      (r.onMatch.next = "end" ∨ r.onMatch.next ∈ tagsOf l) ∧
      (r.noMatch.next = "end" ∨ r.noMatch.next ∈ tagsOf l))
    (hcyc : ∃ t, Reach (tableAssoc l) "start" t ∧ CycleAt (tableAssoc l) t) :
    ∃ t, tableNew l = .error (.ruleRecursion t) ∧
      Reach (tableAssoc l) "start" t ∧ CycleAt (tableAssoc l) t := by
  have hb : buildMap l [] = .ok (tableAssoc l) := buildMap_ok l [] (by simpa using hnd)
  have hndk : ((tableAssoc l).map Prod.fst).Nodup := by
    rw [tableAssoc_keys]; exact hnd
  have hclosed' : ∀ kv ∈ tableAssoc l,
      (kv.2.onMatch.next = "end" ∨ kv.2.onMatch.next ∈ (tableAssoc l).map Prod.fst) ∧
      (kv.2.noMatch.next = "end" ∨ kv.2.noMatch.next ∈ (tableAssoc l).map Prod.fst) := by
    intro kv hm
    obtain ⟨r, hrl, hkv⟩ := List.mem_map.mp hm
    rw [tableAssoc_keys, ← hkv]
    exact hclosed r hrl
  obtain ⟨t0, hreach0, hcyc0⟩ := hcyc
  have hstart : ∃ r0, lookupRule (tableAssoc l) "start" = some r0 := by
    rcases Relation.ReflTransGen.cases_head hreach0 with heq | ⟨c, hedge, _⟩
    · have hcyc0' : Relation.TransGen (Edge (tableAssoc l)) t0 t0 := hcyc0
      obtain ⟨b, hedge, _⟩ := Relation.TransGen.head'_iff.mp hcyc0'
      obtain ⟨_, r0, hl0, _⟩ := hedge
      exact ⟨r0, heq ▸ hl0⟩
    · obtain ⟨_, r0, hl0, _⟩ := hedge
      exact ⟨r0, hl0⟩
  cases hres : traverseTable (tableAssoc l) ((tableAssoc l).length + 1)
      (fun _ => default) "start" with
  | ok out => exact absurd hcyc0 (traverse_ok_no_cycle hres t0 hreach0)
  | error e =>
    rcases traverse_err_shape hres with he | ⟨t, he⟩ | ⟨t, he⟩
    · subst he
      have hz : zeroCount (tableAssoc l) (fun _ => default) < (tableAssoc l).length + 1 := by
        rw [zeroCount_init]; omega
      exact absurd hres (traverse_no_outOfFuel hndk _ _ _ hz)
    · subst he
      obtain ⟨hc, hr⟩ := traverse_recursion_cycle hres
        (fun k hk => absurd hk (by decide)) Relation.ReflTransGen.refl
      exact ⟨t, tableNew_err_of_traverse hb hres, hr, hc⟩
    · subst he
      have hsk : "start" ∈ (tableAssoc l).map Prod.fst := by
        obtain ⟨r0, hl0⟩ := hstart
        exact List.mem_map_of_mem Prod.fst (lookupRule_mem hl0)
      exact absurd hres (traverse_no_undefined hclosed' hsk)

/-- Witness for `table_cycle_rejected` at the claim's example: the
single rule `start` whose else branch jumps back to `start`; the second
conjunct pins the reported tag to `start`. -/
theorem table_cycle_rejected_witness :
    (∃ t, tableNew selfLoopRules = .error (.ruleRecursion t) ∧
      Reach (tableAssoc selfLoopRules) "start" t ∧
      CycleAt (tableAssoc selfLoopRules) t) ∧
    tableNew selfLoopRules = .error (.ruleRecursion "start") := by
  constructor
  · refine table_cycle_rejected selfLoopRules (by decide) ?_ ?_
    · intro r hr
      have hr' : r = mkRule "start" "end" "start" := by
        simpa [selfLoopRules] using hr
      subst hr'
      refine ⟨Or.inl rfl, Or.inr ?_⟩
      decide
    · refine ⟨"start", Relation.ReflTransGen.refl, Relation.TransGen.single ?_⟩
      exact ⟨by decide, mkRule "start" "end" "start", rfl, Or.inr rfl⟩
  · rfl

lemma cycleAndOrphan_edge {a b : String}
    (h : Edge (tableAssoc cycleAndOrphanRules) a b) :
    a = "start" ∧ b = "start" := by
  obtain ⟨hne, r, hl, hor⟩ := h
  simp only [tableAssoc, cycleAndOrphanRules, List.map_cons, List.map_nil,
    lookupRule] at hl
  split at hl
  · rename_i ha
    injection hl with hr
    subst hr
    rcases hor with hb | hb
    · exact ⟨ha.symm, hb.symm⟩
    · exact absurd hb.symm hne
  · split at hl
    · rename_i ha
      injection hl with hr
      subst hr
      rcases hor with hb | hb <;> exact absurd hb.symm hne
    · exact absurd hl (by simp)

/-- C4 counterexample: `orphan` is a rule tag unreachable from `start`,
yet `Table::new` reports `RuleRecursion`, not `UnusedRules`, because the
traversal detects `start`'s self-loop before the unused check runs. -/
theorem unused_rules_counterexample :
    tableNew cycleAndOrphanRules = .error (.ruleRecursion "start") ∧
    "orphan" ∈ tagsOf cycleAndOrphanRules ∧
    ¬ Reach (tableAssoc cycleAndOrphanRules) "start" "orphan" := by
  refine ⟨rfl, by decide, fun h => ?_⟩
  have h' : Relation.ReflTransGen (Edge (tableAssoc cycleAndOrphanRules))
      "start" "orphan" := h
  have hchar : ∀ t, Relation.ReflTransGen (Edge (tableAssoc cycleAndOrphanRules))
      "start" t → t = "start" := by
    intro t ht
    induction ht with
    | refl => rfl
    | tail hp he ih => exact (cycleAndOrphan_edge he).2
  exact absurd (hchar _ h') (by decide)

/-- C4 amended: for every rule list with pairwise distinct tags, a
`start` rule, all branch targets defined and no cycle reachable from
`start`, if some rule tag is unreachable from `start` then `Table::new`
returns `UnusedRules` whose set is exactly the set of unreachable rule
tags. -/
theorem unused_rules_exact (l : List Rule)
    (hnd : (tagsOf l).Nodup)
    (hstart : "start" ∈ tagsOf l)
    (hclosed : ∀ r ∈ l,
      (r.onMatch.next = "end" ∨ r.onMatch.next ∈ tagsOf l) ∧
      (r.noMatch.next = "end" ∨ r.noMatch.next ∈ tagsOf l))
    (hnocyc : ∀ t, Reach (tableAssoc l) "start" t → ¬ CycleAt (tableAssoc l) t)
    (hunreach : ∃ k, k ∈ tagsOf l ∧ ¬ Reach (tableAssoc l) "start" k) :
    ∃ L, tableNew l = .error (.unusedRules L) ∧
      ∀ k, k ∈ L ↔ k ∈ tagsOf l ∧ ¬ Reach (tableAssoc l) "start" k := by
  have hb : buildMap l [] = .ok (tableAssoc l) := buildMap_ok l [] (by simpa using hnd)
  have hndk : ((tableAssoc l).map Prod.fst).Nodup := by
    rw [tableAssoc_keys]; exact hnd
  have hstartk : "start" ∈ (tableAssoc l).map Prod.fst := by
    rw [tableAssoc_keys]; exact hstart
  have hclosed' : ∀ kv ∈ tableAssoc l,
      (kv.2.onMatch.next = "end" ∨ kv.2.onMatch.next ∈ (tableAssoc l).map Prod.fst) ∧
      (kv.2.noMatch.next = "end" ∨ kv.2.noMatch.next ∈ (tableAssoc l).map Prod.fst) := by
    intro kv hm
    obtain ⟨r, hrl, hkv⟩ := List.mem_map.mp hm
    rw [tableAssoc_keys, ← hkv]
    exact hclosed r hrl
  obtain ⟨out, hres⟩ := traverse_start_ok_of hndk hstartk hclosed' hnocyc
  have hused_iff : ∀ k, k ∈ (tableAssoc l).map Prod.fst →
      ((out k).used = true ↔ Reach (tableAssoc l) "start" k) := by
    intro k hk
    constructor
    · intro hu
      rcases traverse_ok_used_reach hres k hu with h1 | h1
      · exact absurd h1 (by decide)
      · exact h1
    · intro hr
      exact (traverse_ok_reach_used hres k hr).2
  refine ⟨unusedOf (tableAssoc l) out, ?_, ?_⟩
  · obtain ⟨k, hkmem, hknr⟩ := hunreach
    have hkmemk : k ∈ (tableAssoc l).map Prod.fst := by
      rw [tableAssoc_keys]; exact hkmem
    have hku : (out k).used = false := by
      cases h2 : (out k).used with
      | false => rfl
      | true => exact absurd ((hused_iff k hkmemk).mp h2) hknr
    have hkin : k ∈ unusedOf (tableAssoc l) out := by
      obtain ⟨r, hpair⟩ := mem_keys_iff.mp hkmemk
      exact mem_unusedOf_iff.mpr ⟨r, hpair, hku⟩
    have hne : (unusedOf (tableAssoc l) out).isEmpty = false := by
      cases hcase : unusedOf (tableAssoc l) out with
      | nil => rw [hcase] at hkin; exact absurd hkin (by simp)
      | cons x xs => rfl
    unfold tableNew
    simp only [hb, hres, hne]
    rfl
  · intro k
    constructor
    · intro hkL
      obtain ⟨r, hpair, hused⟩ := mem_unusedOf_iff.mp hkL
      have hkk : k ∈ (tableAssoc l).map Prod.fst :=
        mem_keys_iff.mpr ⟨r, hpair⟩
      refine ⟨by rwa [tableAssoc_keys] at hkk, fun hr => ?_⟩
      have := (hused_iff k hkk).mpr hr
      rw [this] at hused
      exact absurd hused (by simp)
    · rintro ⟨hkt, hknr⟩
      have hkk : k ∈ (tableAssoc l).map Prod.fst := by
        rw [tableAssoc_keys]; exact hkt
      have hku : (out k).used = false := by
        cases h2 : (out k).used with
        | false => rfl
        | true => exact absurd ((hused_iff k hkk).mp h2) hknr
      obtain ⟨r, hpair⟩ := mem_keys_iff.mp hkk
      exact mem_unusedOf_iff.mpr ⟨r, hpair, hku⟩

lemma orphan_edge {a b : String} (h : Edge (tableAssoc orphanRules) a b) : False := by
  obtain ⟨hne, r, hl, hor⟩ := h
  simp only [tableAssoc, orphanRules, List.map_cons, List.map_nil,
    lookupRule] at hl
  split at hl
  · injection hl with hr
    subst hr
    rcases hor with hb | hb <;> exact absurd hb.symm hne
  · split at hl
    · injection hl with hr
      subst hr
      rcases hor with hb | hb <;> exact absurd hb.symm hne
    · exact absurd hl (by simp)

/-- Witness for `unused_rules_exact` at the claim's example
`{start -> end, orphan -> end}`; its unused set is exactly
`{"orphan"}`. -/
theorem unused_rules_exact_witness :
    (∃ L, tableNew orphanRules = .error (.unusedRules L) ∧
      ∀ k, k ∈ L ↔ k ∈ tagsOf orphanRules ∧
        ¬ Reach (tableAssoc orphanRules) "start" k) ∧
    tableNew orphanRules = .error (.unusedRules ["orphan"]) := by
  constructor
  · refine unused_rules_exact orphanRules (by decide) (by decide) ?_ ?_
      ⟨"orphan", by decide, fun h => ?_⟩
    · intro r hr
      have hr' : r = mkRule "start" "end" "end" ∨ r = mkRule "orphan" "end" "end" := by
        simpa [orphanRules] using hr
      rcases hr' with hr' | hr' <;> subst hr' <;> exact ⟨Or.inl rfl, Or.inl rfl⟩
    · intro t _ hcyc
      have hcyc' : Relation.TransGen (Edge (tableAssoc orphanRules)) t t := hcyc
      obtain ⟨b, he, _⟩ := Relation.TransGen.head'_iff.mp hcyc'
      exact orphan_edge he
    · have h' : Relation.ReflTransGen (Edge (tableAssoc orphanRules))
          "start" "orphan" := h
      have hchar : ∀ t, Relation.ReflTransGen (Edge (tableAssoc orphanRules))
          "start" t → t = "start" := by
        intro t ht
        induction ht with
        | refl => rfl
        | tail hp he ih => exact absurd he orphan_edge
      exact absurd (hchar _ h') (by decide)
  · rfl

lemma nowhere_edge {a b : String} (h : Edge (tableAssoc nowhereRules) a b) :
    a = "start" ∧ b = "nowhere" := by
  obtain ⟨hne, r, hl, hor⟩ := h
  simp only [tableAssoc, nowhereRules, List.map_cons, List.map_nil,
    lookupRule] at hl
  split at hl
  · rename_i ha
    injection hl with hr
    subst hr
    rcases hor with hb | hb <;> exact ⟨ha.symm, hb.symm⟩
  · exact absurd hl (by simp)

/-- C5 counterexample: a rule list with a branch targeting the undefined
tag `nowhere` is rejected with `RuleRecursion`, not `UndefinedTag`,
because the then-branch's self-loop is found first. -/
theorem undefined_tag_counterexample :
    tableNew loopBeforeUndefinedRules = .error (.ruleRecursion "start") ∧
    (mkRule "start" "start" "nowhere").noMatch.next = "nowhere" ∧
    ("nowhere" : String) ≠ "end" ∧
    lookupRule (tableAssoc loopBeforeUndefinedRules) "nowhere" = Option.none :=
  ⟨rfl, rfl, by decide, rfl⟩

/-- C5 amended: for a rule list with pairwise distinct tags, (a) if no
cycle is reachable from `start` and some tag reachable from `start` has
no rule, then `Table::new` fails with `UndefinedTag` naming such a tag;
(b) if no rule has tag `start`, then `Table::new` fails with
`UndefinedTag("start")`. -/
theorem undefined_tag_rejected (l : List Rule) (hnd : (tagsOf l).Nodup) :
    ((∀ t, Reach (tableAssoc l) "start" t → ¬ CycleAt (tableAssoc l) t) →
      (∃ u, Reach (tableAssoc l) "start" u ∧
        lookupRule (tableAssoc l) u = Option.none) →
      ∃ u, tableNew l = .error (.undefinedTag u) ∧
        Reach (tableAssoc l) "start" u ∧
        lookupRule (tableAssoc l) u = Option.none) ∧
    (lookupRule (tableAssoc l) "start" = Option.none →
      tableNew l = .error (.undefinedTag "start")) := by
  have hb : buildMap l [] = .ok (tableAssoc l) := buildMap_ok l [] (by simpa using hnd)
  have hndk : ((tableAssoc l).map Prod.fst).Nodup := by
    rw [tableAssoc_keys]; exact hnd
  constructor
  · rintro hnocyc ⟨u0, hru0, hlu0⟩
    cases hres : traverseTable (tableAssoc l) ((tableAssoc l).length + 1)
        (fun _ => default) "start" with
    | ok out =>
      obtain ⟨⟨r, hr⟩, _⟩ := traverse_ok_reach_used hres u0 hru0
      rw [hlu0] at hr
      exact absurd hr (by simp)
    | error e =>
      rcases traverse_err_shape hres with he | ⟨t, he⟩ | ⟨t, he⟩
      · subst he
        have hz : zeroCount (tableAssoc l) (fun _ => default) <
            (tableAssoc l).length + 1 := by
          rw [zeroCount_init]; omega
        exact absurd hres (traverse_no_outOfFuel hndk _ _ _ hz)
      · subst he
        obtain ⟨hc, hr⟩ := traverse_recursion_cycle hres
          (fun k hk => absurd hk (by decide)) Relation.ReflTransGen.refl
        exact absurd hc (hnocyc t hr)
      · subst he
        obtain ⟨hr, hlu⟩ := traverse_undefined_reach hres Relation.ReflTransGen.refl
        exact ⟨t, tableNew_err_of_traverse hb hres, hr, hlu⟩
  · intro hsnone
    have hres : traverseTable (tableAssoc l) ((tableAssoc l).length + 1)
        (fun _ => default) "start" = .error (.undefinedTag "start") := by
      simp only [traverseTable, hsnone]
    exact tableNew_err_of_traverse hb hres

/-- Witness for `undefined_tag_rejected` at the claim's example
`{start -> next:"nowhere"}`, which is rejected with
`UndefinedTag("nowhere")`. -/
theorem undefined_tag_rejected_witness :
    (∃ u, tableNew nowhereRules = .error (.undefinedTag u) ∧
      Reach (tableAssoc nowhereRules) "start" u ∧
      lookupRule (tableAssoc nowhereRules) u = Option.none) ∧
    tableNew nowhereRules = .error (.undefinedTag "nowhere") := by
  constructor
  · refine (undefined_tag_rejected nowhereRules (by decide)).1 ?_
      ⟨"nowhere", Relation.ReflTransGen.single ?_, rfl⟩
    · intro t _ hcyc
      have hcyc' : Relation.TransGen (Edge (tableAssoc nowhereRules)) t t := hcyc
      obtain ⟨b, he, hrest⟩ := Relation.TransGen.head'_iff.mp hcyc'
      obtain ⟨ht, hbv⟩ := nowhere_edge he
      subst ht hbv
      rcases Relation.ReflTransGen.cases_head hrest with heq | ⟨c, he2, _⟩
      · exact absurd heq (by decide)
      · exact absurd (nowhere_edge he2).1 (by decide)
    · exact ⟨by decide, mkRule "start" "nowhere" "nowhere", rfl, Or.inl rfl⟩
  · rfl

lemma diamond_edge {a b : String} (h : Edge (tableAssoc diamondRules) a b) :
    a = "start" ∧ b = "foo" := by
  obtain ⟨hne, r, hl, hor⟩ := h
  simp only [tableAssoc, diamondRules, List.map_cons, List.map_nil,
    lookupRule] at hl
  split at hl
  · rename_i ha
    injection hl with hr
    subst hr
    rcases hor with hb | hb <;> exact ⟨ha.symm, hb.symm⟩
  · split at hl
    · injection hl with hr
      subst hr
      rcases hor with hb | hb <;> exact absurd hb.symm hne
    · exact absurd hl (by simp)

/-- C9: for every rule list with pairwise distinct tags, a `start` rule,
all branch targets defined, no cycle reachable from `start`, and every
rule tag reachable from `start`, `Table::new` accepts the list — in
particular a tag reached along more than one distinct path (such as a
rule targeted by both branches of `start`) is not reported as
`RuleRecursion`: exactly cycles, not sharing, are rejected. -/
theorem sharing_accepted (l : List Rule)
    (hnd : (tagsOf l).Nodup)
    (hstart : "start" ∈ tagsOf l)
    (hclosed : ∀ r ∈ l,
      (r.onMatch.next = "end" ∨ r.onMatch.next ∈ tagsOf l) ∧
      (r.noMatch.next = "end" ∨ r.noMatch.next ∈ tagsOf l))
    (hnocyc : ∀ t, Reach (tableAssoc l) "start" t → ¬ CycleAt (tableAssoc l) t)
    (hallreach : ∀ k ∈ tagsOf l, Reach (tableAssoc l) "start" k) :
    ∃ t, tableNew l = .ok t := by
  have hb : buildMap l [] = .ok (tableAssoc l) := buildMap_ok l [] (by simpa using hnd)
  have hndk : ((tableAssoc l).map Prod.fst).Nodup := by
    rw [tableAssoc_keys]; exact hnd
  have hstartk : "start" ∈ (tableAssoc l).map Prod.fst := by
    rw [tableAssoc_keys]; exact hstart
  have hclosed' : ∀ kv ∈ tableAssoc l,
      (kv.2.onMatch.next = "end" ∨ kv.2.onMatch.next ∈ (tableAssoc l).map Prod.fst) ∧
      (kv.2.noMatch.next = "end" ∨ kv.2.noMatch.next ∈ (tableAssoc l).map Prod.fst) := by
    intro kv hm
    obtain ⟨r, hrl, hkv⟩ := List.mem_map.mp hm
    rw [tableAssoc_keys, ← hkv]
    exact hclosed r hrl
  obtain ⟨out, hres⟩ := traverse_start_ok_of hndk hstartk hclosed' hnocyc
  have hall : ∀ kv ∈ tableAssoc l, (out kv.1).used = true := by
    intro kv hm
    refine (traverse_ok_reach_used hres kv.1 (hallreach kv.1 ?_)).2
    rw [← tableAssoc_keys]
    exact List.mem_map_of_mem Prod.fst hm
  exact ⟨_, tableNew_ok_of hb hres hall⟩

/-- Witness for `sharing_accepted` at the diamond table where both
branches of `start` point to the same tag `foo`; the second conjunct
records that the two branch targets coincide, i.e. `foo` is reached
along two distinct paths. -/
theorem sharing_accepted_witness :
    (∃ t, tableNew diamondRules = .ok t) ∧
    (mkRule "start" "foo" "foo").onMatch.next =
      (mkRule "start" "foo" "foo").noMatch.next := by
  constructor
  · refine sharing_accepted diamondRules (by decide) (by decide) ?_ ?_ ?_
    · intro r hr
      have hr' : r = mkRule "start" "foo" "foo" ∨ r = mkRule "foo" "end" "end" := by
        simpa [diamondRules] using hr
      rcases hr' with hr' | hr' <;> subst hr'
      · exact ⟨Or.inr (by decide), Or.inr (by decide)⟩
      · exact ⟨Or.inl rfl, Or.inl rfl⟩
    · intro t _ hcyc
      have hcyc' : Relation.TransGen (Edge (tableAssoc diamondRules)) t t := hcyc
      obtain ⟨b, he, hrest⟩ := Relation.TransGen.head'_iff.mp hcyc'
      obtain ⟨ht, hbv⟩ := diamond_edge he
      subst ht hbv
      rcases Relation.ReflTransGen.cases_head hrest with heq | ⟨c, he2, _⟩
      · exact absurd heq (by decide)
      · exact absurd (diamond_edge he2).1 (by decide)
    · intro k hk
      have hk' : k = "start" ∨ k = "foo" := by
        simpa [tagsOf, diamondRules, mkRule] using hk
      rcases hk' with hk' | hk' <;> subst hk'
      · exact Relation.ReflTransGen.refl
      · exact Relation.ReflTransGen.single
          ⟨by decide, mkRule "start" "foo" "foo", rfl, Or.inl rfl⟩
  · rfl
